import Mathlib

/-!
Shallow embedding of the Byteneko CSV reader/validator
(`src/tools/cpp_csv/cpp_csv.cpp`) and proofs about its specification.

Strings are modelled as `List Char`.  The pybind11 marshalling layer is
outside the core; rows and dictionaries are modelled as Lean lists and
association lists.  `std::stod` is modelled on its decimal grammar with
exact rational values (see `stodModel`).
-/

namespace CppCsv

/-- The character set accepted by `std::isspace` in the C locale. -/
def cppIsSpace (c : Char) : Bool :=
  c = ' ' ∨ c = '\t' ∨ c = '\n' ∨ c = '\x0b' ∨ c = '\x0c' ∨ c = '\r'

/-- Decimal digit test, as used by the `strtod` grammar. -/
def isDig (c : Char) : Bool := '0' ≤ c ∧ c ≤ '9'

/-!
## Line tokenizer (`parse_csv_line`)

The C++ loop scans the line left to right with an `in_quotes` flag and an
accumulating cell; `parseCsvAux` is that loop with the remaining input,
the flag, the current cell and the rows emitted so far as state.
-/

/-- One-to-one embedding of the scanning loop of `parse_csv_line`:
the first argument is the unread rest of the line.  The lookahead
`i + 1 < line.size() && line[i+1] == '"'` is `rest.head? = some '"'`. -/
def parseCsvAux (delim : Char) : List Char → Bool → List Char →
    List (List Char) → List (List Char)
  | [], _, cell, acc => acc ++ [cell]
  | c :: rest, inq, cell, acc =>
    if c = '"' ∧ inq ∧ rest.head? = some '"' then
      parseCsvAux delim rest.tail inq (cell ++ ['"']) acc
    else if c = '"' then
      parseCsvAux delim rest (!inq) cell acc
    else if c = delim ∧ !inq then
      parseCsvAux delim rest inq [] (acc ++ [cell])
    else
      parseCsvAux delim rest inq (cell ++ [c]) acc
  termination_by l _ _ _ => l.length
  decreasing_by
  all_goals simp [List.length_tail]
  all_goals omega

/-- `parse_csv_line(line, delimiter)` from the source. -/
def parse_csv_line (line : List Char) (delim : Char) : List (List Char) :=
  parseCsvAux delim line false [] []

/-- The `in_quotes` flag left after scanning a list of characters,
mirroring exactly the quote handling of `parse_csv_line`. -/
def quoteState : List Char → Bool → Bool
  | [], inq => inq
  | c :: rest, inq =>
    if c = '"' ∧ inq ∧ rest.head? = some '"' then
      quoteState rest.tail inq
    else if c = '"' then
      quoteState rest (!inq)
    else
      quoteState rest inq
  termination_by l _ => l.length
  decreasing_by
  all_goals simp [List.length_tail]
  all_goals omega

/-- Number of delimiter occurrences that `parse_csv_line` sees outside
quotes (each one terminates a cell). -/
def countDelims (delim : Char) : List Char → Bool → Nat
  | [], _ => 0
  | c :: rest, inq =>
    if c = '"' ∧ inq ∧ rest.head? = some '"' then
      countDelims delim rest.tail inq
    else if c = '"' then
      countDelims delim rest (!inq)
    else if c = delim ∧ !inq then
      countDelims delim rest inq + 1
    else
      countDelims delim rest inq
  termination_by l _ => l.length
  decreasing_by
  all_goals simp [List.length_tail]
  all_goals omega

/-!
## File reader (`read_csv_impl`)

File contents are modelled as the list of physical lines that
`std::getline` would deliver (line text without the terminating `\n`,
but including a `\r` left by a Windows `\r\n` ending).
-/

/-- `if (!line.empty() && line.back() == '\r') line.pop_back();` -/
def stripCR (l : List Char) : List Char :=
  if l ≠ [] ∧ l.getLast? = some '\r' then l.dropLast else l

/-- The reading loop of `read_csv_impl`: strip one trailing CR,
skip resulting blank lines, tokenize the rest in order. -/
def read_csv_impl (lines : List (List Char)) (delim : Char) :
    List (List (List Char)) :=
  match lines with
  | [] => []
  | l :: rest =>
    let l2 := stripCR l
    if l2 = [] then read_csv_impl rest delim
    else parse_csv_line l2 delim :: read_csv_impl rest delim

/-!
## `trim`

The C++ helper advances `start` over leading whitespace, then runs a
`do { --end; } while (distance(start,end) > 0 && isspace(*end));`
backward scan from `str.end()` and returns `string(start, end + 1)`.
The backward scan is embedded with an `Int`-valued index so that the
position reached below index 0 on the empty string is observable.
-/

/-- Index of the first non-whitespace character (`str.length` if none):
the final position of the `start` iterator. -/
def findStart : List Char → Nat
  | [] => 0
  | c :: rest => if cppIsSpace c then findStart rest + 1 else 0

/-- The backward do-while scan of `trim`.  The `Nat` argument is the
current value of the `end` iterator as an offset (initially the string
length); each step first decrements, then repeats while
`end - start > 0` and the character at `end` is whitespace.  The result
is the final offset of `end`, as an `Int` (it is `-1` exactly when the
decrement moved one position before the start of the string). -/
def backScanE (s : List Char) (start : Nat) : Nat → Int
  | 0 => -1
  | e + 1 =>
    if start < e ∧ cppIsSpace (s.getD e 'a') then backScanE s start e
    else e

/-- Final offset of the `end` iterator of `trim` on input `s`. -/
def trimScanEnd (s : List Char) : Int :=
  backScanE s (findStart s) s.length

/-- `trim(str)` from the source: the range `[start, end + 1)`. -/
def cppTrim (s : List Char) : List Char :=
  (s.take (trimScanEnd s + 1).toNat).drop (findStart s)

/-- The specification-side trim: the input with all leading and
trailing whitespace removed. -/
def trimSpec (s : List Char) : List Char :=
  ((s.dropWhile cppIsSpace).reverse.dropWhile cppIsSpace).reverse

/-!
## `std::stod`

`stodModel` is a PARTIAL model of `std::stod(trimmed, &pos)`: it covers
only the decimal fragment of the `strtod` grammar (optional sign,
digits with an optional decimal point and at least one digit overall,
then an exponent part consumed only when at least one exponent digit
follows), with `none` for `std::invalid_argument` and `some (v, pos)`
for a conversion of `pos` characters to the exact rational `v`.

It is NOT a faithful `std::stod`.  The real function also accepts the
hexadecimal, infinity and NaN forms of `strtod` (e.g. "0x1A", "inf",
"nan", which this model rejects or consumes only partially), throws
`std::out_of_range` when the correctly rounded result over- or
underflows the `double` range (e.g. "1e400", which this model converts
to an unbounded exact rational), and returns IEEE-754 binary64 values
rounded from the literal, with NaN comparing false against any bound.
Those behaviours are defined by floating-point semantics (and, for the
underflow ERANGE condition, by the C library), which this exact-
rational embedding does not state; the model exists only so that
`validate_value` below is a total function.  No claim is settled on the
fidelity of `stodModel`: the per-cell numeric claims that depend on it
are reported not statable, and every property proved about
`validate_value` and the row loop (empty-after-trim handling, the
SINGLE branch, padding, error accumulation and ordering) holds
uniformly in whichever branch of the numeric match is taken. -/
def digsVal (ds : List Char) : Nat :=
  ds.foldl (fun a c => 10 * a + (c.toNat - 48)) 0

/-- Exponent application: `m * 10 ^ e` over ℚ with an integer `e`. -/
def applyExp (m : ℚ) (e : Int) : ℚ :=
  if 0 ≤ e then m * (10 : ℚ) ^ e.toNat else m / (10 : ℚ) ^ (-e).toNat

/-- Decimal `strtod` model; see the section comment. -/
def stodModel (s : List Char) : Option (ℚ × Nat) :=
  let sgn : ℚ × List Char × Nat :=
    match s with
    | '-' :: r => (-1, r, 1)
    | '+' :: r => (1, r, 1)
    | _ => (1, s, 0)
  let s1 := sgn.2.1
  let ip := s1.takeWhile isDig
  let s2 := s1.drop ip.length
  let fpart : List Char × List Char × Nat :=
    match s2 with
    | '.' :: r => (r.takeWhile isDig, r.drop (r.takeWhile isDig).length,
                   (r.takeWhile isDig).length + 1)
    | _ => ([], s2, 0)
  let fp := fpart.1
  if ip.length + fp.length = 0 then none
  else
    let mant : ℚ := sgn.1 * (digsVal (ip ++ fp) : ℚ) / (10 : ℚ) ^ fp.length
    let base := sgn.2.2 + ip.length + fpart.2.2
    match fpart.2.1 with
    | c :: r =>
      if c = 'e' ∨ c = 'E' then
        let esgn : Int × List Char × Nat :=
          match r with
          | '-' :: rr => (-1, rr, 1)
          | '+' :: rr => (1, rr, 1)
          | _ => (1, r, 0)
        let eds := esgn.2.1.takeWhile isDig
        if eds.length = 0 then some (mant, base)
        else some (applyExp mant (esgn.1 * digsVal eds),
                   base + 1 + esgn.2.2 + eds.length)
      else some (mant, base)
    | [] => some (mant, base)

/-!
## Validation data model (`namespace validation` in the source)

Error messages are embedded as a closed inductive mirroring the four
distinct message shapes produced by `validate_value`; `outOfRange`
carries the two bounds that `ostringstream` formats into the text
"Valor fuera de rango [min, max]".
-/

inductive FieldType where
  | TEXT
  | NUMBER
  | SCALE
  | SINGLE
  deriving DecidableEq, Repr

/-- The four messages of `validate_value`: "No es un número válido",
"No es un número válido para escala", "Valor fuera de rango [lo, hi]"
(with the formatted bounds), "Opción no válida". -/
inductive ErrMsg where
  | notValidNumber
  | notValidNumberScale
  | outOfRange (lo hi : ℚ)
  | invalidOption
  deriving DecidableEq, Repr

structure ValidationRule where
  type : FieldType
  min_value : ℚ := 0
  max_value : ℚ := 10
  valid_options : List (List Char) := []
  deriving DecidableEq, Repr

structure ValidationError where
  row_index : Nat
  column : List Char
  value : List Char
  message : ErrMsg
  deriving DecidableEq, Repr

/-- A validated cell: `py::none()`, a `double`, or a Python string. -/
inductive CellValue where
  | null
  | num (q : ℚ)
  | str (s : List Char)
  deriving DecidableEq, Repr

/-- `validate_value(value, rule, row_idx, column, errors)`: returns the
converted cell and the updated error vector (`errors.push_back` is
modelled by appending). -/
def validate_value (value : List Char) (rule : ValidationRule)
    (row_idx : Nat) (column : List Char)
    (errors : List ValidationError) : CellValue × List ValidationError :=
  let trimmed := cppTrim value
  if trimmed = [] then (.null, errors)
  else
    match rule.type with
    | .NUMBER =>
      match stodModel trimmed with
      | some (num, pos) =>
        if pos ≠ trimmed.length then
          (.null, errors ++ [⟨row_idx, column, value, .notValidNumber⟩])
        else (.num num, errors)
      | none =>
        (.null, errors ++ [⟨row_idx, column, value, .notValidNumber⟩])
    | .SCALE =>
      match stodModel trimmed with
      | some (num, pos) =>
        if pos ≠ trimmed.length then
          (.null, errors ++ [⟨row_idx, column, value, .notValidNumberScale⟩])
        else if num < rule.min_value ∨ rule.max_value < num then
          (.null, errors ++
            [⟨row_idx, column, value, .outOfRange rule.min_value rule.max_value⟩])
        else (.num num, errors)
      | none =>
        (.null, errors ++ [⟨row_idx, column, value, .notValidNumberScale⟩])
    | .SINGLE =>
      if rule.valid_options ≠ [] ∧ trimmed ∉ rule.valid_options then
        (.null, errors ++ [⟨row_idx, column, value, .invalidOption⟩])
      else (.str trimmed, errors)
    | .TEXT => (.str trimmed, errors)

/-!
## Row validation (`read_and_validate_csv`) and records (`read_csv_dicts`)

The compiled schema (`unordered_map<string, ValidationRule>`) is
modelled as an association list queried with `lookupRule`; a Python row
dictionary is modelled as the ordered association list of the
`(column name, value)` pairs inserted by the loop.  The per-row loop
runs `j` over `[0, min(header.size, row.size))`, which is exactly
`header.zip row`, and then pads the missing trailing columns.
-/

def lookupRule (rules : List (List Char × ValidationRule))
    (name : List Char) : Option ValidationRule :=
  (rules.find? (fun p => p.1 = name)).map Prod.snd

/-- The inner column loop of `read_and_validate_csv`: for each
`(header name, cell)` pair, validate under the rule for that name, or
pass the trimmed cell through as a string when no rule exists. -/
def validateCells (rules : List (List Char × ValidationRule)) (i : Nat) :
    List (List Char × List Char) → List ValidationError →
    List (List Char × CellValue) × List ValidationError
  | [], errs => ([], errs)
  | (name, cell) :: rest, errs =>
    match lookupRule rules name with
    | some rule =>
      let r1 := validate_value cell rule i name errs
      let r2 := validateCells rules i rest r1.2
      ((name, r1.1) :: r2.1, r2.2)
    | none =>
      let r2 := validateCells rules i rest errs
      ((name, .str (cppTrim cell)) :: r2.1, r2.2)

/-- One data row of `read_and_validate_csv`: the validated prefix of
length `min(header, row)` followed by `py::none()` padding for the
missing trailing columns. -/
def processRow (rules : List (List Char × ValidationRule)) (i : Nat)
    (header row : List (List Char)) (errs : List ValidationError) :
    List (List Char × CellValue) × List ValidationError :=
  let r := validateCells rules i (header.zip row) errs
  (r.1 ++ (header.drop row.length).map (fun n => (n, CellValue.null)), r.2)

/-- The data-row loop of `read_and_validate_csv` (`i` is the index of
the first row of the list in the raw table; the top-level call passes
`1`). -/
def validateRows (rules : List (List Char × ValidationRule))
    (header : List (List Char)) (i : Nat) :
    List (List (List Char)) → List ValidationError →
    List (List (List Char × CellValue)) × List ValidationError
  | [], errs => ([], errs)
  | row :: rest, errs =>
    let r1 := processRow rules i header row errs
    let r2 := validateRows rules header (i + 1) rest r1.2
    (r1.1 :: r2.1, r2.2)

/-- `read_and_validate_csv` after file reading: empty table gives empty
data and errors; otherwise the first row is the header and the rest are
validated with 1-based indices. -/
def read_and_validate (rules : List (List Char × ValidationRule))
    (rows : List (List (List Char))) :
    List (List (List Char × CellValue)) × List ValidationError :=
  match rows with
  | [] => ([], [])
  | header :: dataRows => validateRows rules header 1 dataRows []

/-- One record of `read_csv_dicts`: raw cells for the first
`min(header, row)` columns, empty strings for missing trailing
columns (no trimming, no validation). -/
def dictsRow (header row : List (List Char)) :
    List (List Char × List Char) :=
  header.zip row ++ (header.drop row.length).map (fun n => (n, ([] : List Char)))

/-- `read_csv_dicts` after file reading. -/
def read_csv_dicts (rows : List (List (List Char))) :
    List (List (List Char × List Char)) :=
  match rows with
  | [] => []
  | header :: dataRows => dataRows.map (dictsRow header)

/-!
## Derived error streams (used to state the error-ordering claim)
-/

/-- The errors contributed by one `(name, cell)` pair on its own. -/
def cellErrs (rules : List (List Char × ValidationRule)) (i : Nat)
    (p : List Char × List Char) : List ValidationError :=
  match lookupRule rules p.1 with
  | some rule => (validate_value p.2 rule i p.1 []).2
  | none => []

/-- The errors contributed by one data row on its own. -/
def rowErrs (rules : List (List Char × ValidationRule)) (i : Nat)
    (header row : List (List Char)) : List ValidationError :=
  ((header.zip row).map (cellErrs rules i)).flatten

/-- The errors of a list of data rows starting at index `i`. -/
def rowsErrs (rules : List (List Char × ValidationRule))
    (header : List (List Char)) (i : Nat) :
    List (List (List Char)) → List ValidationError
  | [] => []
  | row :: rest => rowErrs rules i header row ++ rowsErrs rules header (i + 1) rest

/-- Joining cells with a delimiter (used by the round-trip claim). -/
def joinWith (d : Char) : List (List Char) → List Char
  | [] => []
  | [c] => c
  | c :: rest => c ++ d :: joinWith d rest

/-!
## Tokenizer lemmas
-/

theorem parseAux_nil (d : Char) (inq : Bool) (cell : List Char)
    (acc : List (List Char)) : parseCsvAux d [] inq cell acc = acc ++ [cell] := by
  simp [parseCsvAux]

/-- Scanning a block of ordinary characters (no delimiter, no quote)
just appends them to the current cell. -/
theorem parseAux_plain (d : Char) :
    ∀ (cell : List Char), (∀ c ∈ cell, c ≠ d ∧ c ≠ '"') →
    ∀ (rest cur : List Char) (acc : List (List Char)),
    parseCsvAux d (cell ++ rest) false cur acc
      = parseCsvAux d rest false (cur ++ cell) acc := by
  intro cell
  induction cell with
  | nil => intro _ rest cur acc; simp
  | cons c cs ih =>
    intro h rest cur acc
    have hc : c ≠ d ∧ c ≠ '"' := h c (by simp)
    have hcs : ∀ x ∈ cs, x ≠ d ∧ x ≠ '"' := fun x hx => h x (by simp [hx])
    rw [List.cons_append, parseCsvAux]
    simp only [hc.2, false_and, if_false, hc.1, if_neg]
    rw [ih hcs rest (cur ++ [c]) acc]
    simp

/-- Appending one unquoted delimiter at the end of a line appends one
empty cell to the tokenization. -/
theorem parseAux_append_delim (d : Char) (hd : d ≠ '"') :
    ∀ (l : List Char) (inq : Bool) (cell : List Char) (acc : List (List Char)),
    quoteState l inq = false →
    parseCsvAux d (l ++ [d]) inq cell acc = parseCsvAux d l inq cell acc ++ [[]]
  | [], inq, cell, acc => by
    intro hq
    simp only [quoteState] at hq
    subst hq
    simp [parseCsvAux, hd]
  | c :: rest, inq, cell, acc => by
    intro hq
    rw [quoteState] at hq
    rw [List.cons_append, parseCsvAux, parseCsvAux]
    by_cases h1 : c = '"' ∧ inq = true ∧ rest.head? = some '"'
    · have hrest : rest ≠ [] := by
        intro he; rw [he] at h1; simp at h1
      have h1' : c = '"' ∧ inq = true ∧ (rest ++ [d]).head? = some '"' := by
        obtain ⟨a, b, hh⟩ := h1
        refine ⟨a, b, ?_⟩
        cases rest with
        | nil => simp at hh
        | cons r rs => simpa using hh
      simp only [if_pos h1, if_pos h1'] at hq ⊢
      have htail : (rest ++ [d]).tail = rest.tail ++ [d] := by
        cases rest with
        | nil => exact absurd rfl hrest
        | cons r rs => simp
      rw [htail]
      exact parseAux_append_delim d hd rest.tail inq (cell ++ ['"']) acc hq
    · have h1' : ¬(c = '"' ∧ inq = true ∧ (rest ++ [d]).head? = some '"') := by
        intro ⟨a, b, hh⟩
        refine h1 ⟨a, b, ?_⟩
        cases rest with
        | nil => simp at hh; exact absurd hh hd
        | cons r rs => simpa using hh
      simp only [if_neg h1, if_neg h1'] at hq ⊢
      by_cases h2 : c = '"'
      · simp only [if_pos h2] at hq ⊢
        exact parseAux_append_delim d hd rest (!inq) cell acc hq
      · simp only [if_neg h2] at hq ⊢
        by_cases h3 : c = d ∧ !inq
        · simp only [if_pos h3]
          exact parseAux_append_delim d hd rest inq [] (acc ++ [cell]) hq
        · simp only [if_neg h3]
          exact parseAux_append_delim d hd rest inq (cell ++ [c]) acc hq
  termination_by l _ _ _ => l.length
  decreasing_by
  all_goals simp [List.length_tail]
  all_goals omega

/-- The tokenization has exactly one more cell than there are unquoted
delimiter occurrences. -/
theorem parseAux_length (d : Char) :
    ∀ (l : List Char) (inq : Bool) (cell : List Char) (acc : List (List Char)),
    (parseCsvAux d l inq cell acc).length = acc.length + 1 + countDelims d l inq
  | [], inq, cell, acc => by simp [parseCsvAux, countDelims]
  | c :: rest, inq, cell, acc => by
    rw [parseCsvAux, countDelims]
    by_cases h1 : c = '"' ∧ inq = true ∧ rest.head? = some '"'
    · simp only [if_pos h1]
      exact parseAux_length d rest.tail inq (cell ++ ['"']) acc
    · simp only [if_neg h1]
      by_cases h2 : c = '"'
      · simp only [if_pos h2]
        exact parseAux_length d rest (!inq) cell acc
      · simp only [if_neg h2]
        by_cases h3 : c = d ∧ !inq
        · simp only [if_pos h3]
          have := parseAux_length d rest inq [] (acc ++ [cell])
          simp at this
          simp [this]
          omega
        · simp only [if_neg h3]
          exact parseAux_length d rest inq (cell ++ [c]) acc
  termination_by l _ _ _ => l.length
  decreasing_by
  all_goals simp [List.length_tail]
  all_goals omega

/-- A tokenized row is never empty. -/
theorem parse_csv_line_ne_nil (line : List Char) (d : Char) :
    parse_csv_line line d ≠ [] := by
  intro h
  have := parseAux_length d line false [] []
  rw [parse_csv_line] at h
  rw [h] at this
  simp at this
  omega

/-- Joining plain cells and retokenizing reproduces them, generalized
over the cells already emitted. -/
theorem parseAux_joinWith (d : Char) (hd : d ≠ '"') :
    ∀ (cells : List (List Char)), cells ≠ [] →
    (∀ cell ∈ cells, ∀ c ∈ cell, c ≠ d ∧ c ≠ '"') →
    ∀ (acc : List (List Char)),
    parseCsvAux d (joinWith d cells) false [] acc = acc ++ cells := by
  intro cells
  induction cells with
  | nil => intro h; exact absurd rfl h
  | cons c rest ih =>
    intro _ hplain acc
    have hc : ∀ x ∈ c, x ≠ d ∧ x ≠ '"' := hplain c (by simp)
    cases rest with
    | nil =>
      have : joinWith d [c] = c := rfl
      rw [this]
      have := parseAux_plain d c hc [] [] acc
      simp at this
      rw [this, parseAux_nil]
    | cons c2 rest2 =>
      have hjoin : joinWith d (c :: c2 :: rest2) = c ++ d :: joinWith d (c2 :: rest2) := rfl
      rw [hjoin, parseAux_plain d c hc _ [] acc]
      rw [List.nil_append, parseCsvAux]
      have hdq : ¬ d = '"' := hd
      simp only [hdq, false_and, if_false, if_neg, and_true, if_pos, not_false_iff,
        Bool.not_false, and_self, ite_true]
      have hrest : ∀ cell ∈ c2 :: rest2, ∀ x ∈ cell, x ≠ d ∧ x ≠ '"' :=
        fun cell hcell => hplain cell (by simp [hcell])
      rw [ih (by simp) hrest (acc ++ [c])]
      simp

/-!
## Claim theorems: tokenizer and file reader
-/

/-- Claim C1: the tokenizer scans left to right with an in-quotes flag:
a double-quote inside quotes followed by another double-quote emits one
literal double-quote and consumes both characters; any other
double-quote toggles the flag; the delimiter outside quotes ends the
current cell verbatim while inside quotes it is appended literally; the
final accumulated cell is always appended even if empty, so the empty
line yields one empty cell, a line with zero unquoted delimiters yields
exactly one cell, and a line ending in an unquoted delimiter yields a
trailing empty cell. -/
theorem tokenizer_scan_spec :
    (∀ d : Char, parse_csv_line [] d = [[]]) ∧
    (∀ (d : Char) (rest cell : List Char) (acc : List (List Char)),
      parseCsvAux d ('"' :: '"' :: rest) true cell acc
        = parseCsvAux d rest true (cell ++ ['"']) acc) ∧
    (∀ (d : Char) (rest cell : List Char) (acc : List (List Char)),
      parseCsvAux d ('"' :: rest) false cell acc
        = parseCsvAux d rest true cell acc) ∧
    (∀ (d : Char) (rest cell : List Char) (acc : List (List Char)),
      rest.head? ≠ some '"' →
      parseCsvAux d ('"' :: rest) true cell acc
        = parseCsvAux d rest false cell acc) ∧
    (∀ (d : Char) (rest cell : List Char) (acc : List (List Char)),
      d ≠ '"' →
      parseCsvAux d (d :: rest) false cell acc
        = parseCsvAux d rest false [] (acc ++ [cell])) ∧
    (∀ (d : Char) (rest cell : List Char) (acc : List (List Char)),
      d ≠ '"' →
      parseCsvAux d (d :: rest) true cell acc
        = parseCsvAux d rest true (cell ++ [d]) acc) ∧
    (∀ (d : Char) (inq : Bool) (cell : List Char) (acc : List (List Char)),
      parseCsvAux d [] inq cell acc = acc ++ [cell]) ∧
    (∀ (d : Char) (line : List Char),
      countDelims d line false = 0 → (parse_csv_line line d).length = 1) ∧
    (∀ (d : Char) (line : List Char),
      d ≠ '"' → quoteState line false = false →
      parse_csv_line (line ++ [d]) d = parse_csv_line line d ++ [[]]) := by
  refine ⟨?_, ?_, ?_, ?_, ?_, ?_, ?_, ?_, ?_⟩
  · intro d; simp [parse_csv_line, parseCsvAux]
  · intro d rest cell acc
    rw [parseCsvAux]
    simp
  · intro d rest cell acc
    rw [parseCsvAux]
    simp
  · intro d rest cell acc h
    rw [parseCsvAux]
    simp [h]
  · intro d rest cell acc h
    rw [parseCsvAux]
    have hne : ¬ d = '"' := h
    simp [hne]
  · intro d rest cell acc h
    rw [parseCsvAux]
    have hne : ¬ d = '"' := h
    simp [hne]
  · intro d inq cell acc; simp [parseCsvAux]
  · intro d line h
    rw [parse_csv_line, parseAux_length d line false [] []]
    simp [h]
  · intro d line hd hq
    rw [parse_csv_line, parse_csv_line]
    exact parseAux_append_delim d hd line false [] [] hq

/-- Witness for `tokenizer_scan_spec`: each hypothesis-bearing conjunct
checked at a concrete input. -/
theorem tokenizer_scan_spec_witness :
    parseCsvAux ',' ('"' :: 'a' :: []) true ['x'] []
      = parseCsvAux ',' ['a'] false ['x'] [] ∧
    parseCsvAux ',' (',' :: 'b' :: []) false ['a'] []
      = parseCsvAux ',' ['b'] false [] [['a']] ∧
    parseCsvAux ',' (',' :: 'b' :: []) true ['a'] []
      = parseCsvAux ',' ['b'] true ['a', ','] [] ∧
    (parse_csv_line ['a', 'b'] ',').length = 1 ∧
    parse_csv_line (['a'] ++ [',']) ',' = parse_csv_line ['a'] ',' ++ [[]] := by
  refine ⟨tokenizer_scan_spec.2.2.2.1 ',' ['a'] ['x'] [] (by simp),
    tokenizer_scan_spec.2.2.2.2.1 ',' ['b'] ['a'] [] (by simp),
    ?_,
    tokenizer_scan_spec.2.2.2.2.2.2.2.1 ',' ['a', 'b'] (by simp [countDelims]),
    tokenizer_scan_spec.2.2.2.2.2.2.2.2 ',' ['a'] (by simp) (by simp [quoteState])⟩
  have := tokenizer_scan_spec.2.2.2.2.2.1 ',' ['b'] ['a'] [] (by simp)
  simpa using this

/-- Counterexample to claim C8 as stated over every sequence of cells
and every delimiter: the empty sequence joins to the empty line, which
tokenizes to one empty cell rather than to no cells; and with the
double-quote character itself as delimiter the quote branch of the
scanner wins, so the join of ["a"], ["b"] tokenizes to a single cell. -/
theorem join_tokenize_roundtrip_cex :
    ¬ (parse_csv_line (joinWith ',' []) ',' = []) ∧
    ¬ (parse_csv_line (joinWith '"' [['a'], ['b']]) '"' = [['a'], ['b']]) := by
  constructor
  · simp [joinWith, parse_csv_line, parseCsvAux]
  · simp [joinWith, parse_csv_line, parseCsvAux]

/-- Claim C8 (amended): for every NON-EMPTY sequence of cells none of
which contains the delimiter or a double-quote, and every delimiter
OTHER THAN the double-quote character, tokenizing the join of the cells
with the delimiter reproduces exactly the original cells. -/
theorem join_tokenize_roundtrip_amended (d : Char) (cells : List (List Char))
    (hd : d ≠ '"') (hne : cells ≠ [])
    (hplain : ∀ cell ∈ cells, ∀ c ∈ cell, c ≠ d ∧ c ≠ '"') :
    parse_csv_line (joinWith d cells) d = cells := by
  rw [parse_csv_line]
  have := parseAux_joinWith d hd cells hne hplain []
  simpa using this

/-- Witness for `join_tokenize_roundtrip_amended` at a concrete row. -/
theorem join_tokenize_roundtrip_amended_witness :
    parse_csv_line (joinWith ',' [['a'], ['b', 'c']]) ',' = [['a'], ['b', 'c']] :=
  join_tokenize_roundtrip_amended ',' [['a'], ['b', 'c']] (by simp) (by simp) (by
    intro cell hcell c hc
    fin_cases hcell <;> fin_cases hc <;> simp)

theorem read_csv_impl_eq (lines : List (List Char)) (d : Char) :
    read_csv_impl lines d
      = ((lines.map stripCR).filter (fun l => l ≠ [])).map
          (fun l => parse_csv_line l d) := by
  induction lines with
  | nil => simp [read_csv_impl]
  | cons l rest ih =>
    rw [read_csv_impl]
    by_cases h : stripCR l = []
    · simp [h, ih]
    · simp [h, ih]

theorem stripCR_append_cr (l : List Char) : stripCR (l ++ ['\r']) = l := by
  simp [stripCR]

theorem stripCR_no_cr (l : List Char) (h : l.getLast? ≠ some '\r') :
    stripCR l = l := by
  simp [stripCR, h]

/-- Claim C4: the file reader strips exactly one trailing carriage
return per physical line, omits lines that are blank after the strip
(no zero-cell row is ever emitted), and tokenizes the remaining lines
with the delimiter in file order without column-count normalization; a
line ending in CRLF is read identically to the same line ending in
LF. -/
theorem file_reader_spec :
    (∀ (lines : List (List Char)) (d : Char),
      read_csv_impl lines d
        = ((lines.map stripCR).filter (fun l => l ≠ [])).map
            (fun l => parse_csv_line l d)) ∧
    (∀ (l : List Char) (rest : List (List Char)) (d : Char),
      l.getLast? ≠ some '\r' →
      read_csv_impl ((l ++ ['\r']) :: rest) d = read_csv_impl (l :: rest) d) ∧
    (∀ (rest : List (List Char)) (d : Char),
      read_csv_impl ([] :: rest) d = read_csv_impl rest d) ∧
    (∀ (rest : List (List Char)) (d : Char),
      read_csv_impl (['\r'] :: rest) d = read_csv_impl rest d) ∧
    (∀ (lines : List (List Char)) (d : Char) (row : List (List Char)),
      row ∈ read_csv_impl lines d → row ≠ []) := by
  refine ⟨read_csv_impl_eq, ?_, ?_, ?_, ?_⟩
  · intro l rest d h
    rw [read_csv_impl, read_csv_impl, stripCR_append_cr, stripCR_no_cr l h]
  · intro rest d
    rw [read_csv_impl]
    simp [stripCR]
  · intro rest d
    rw [read_csv_impl]
    simp [stripCR]
  · intro lines d row hrow
    rw [read_csv_impl_eq] at hrow
    simp at hrow
    obtain ⟨l, _, hl⟩ := hrow
    rw [← hl]
    exact parse_csv_line_ne_nil _ d

/-- Witness for `file_reader_spec`: CRLF/LF agreement and the no-empty-
row fact at concrete inputs. -/
theorem file_reader_spec_witness :
    read_csv_impl (((['a'] ++ ['\r']) :: [['b']]) : List (List Char)) ','
      = read_csv_impl (['a'] :: [['b']]) ',' ∧
    ([['a'], ['b']] : List (List Char)) ≠ [] := by
  constructor
  · exact file_reader_spec.2.1 ['a'] [['b']] ',' (by simp)
  · exact file_reader_spec.2.2.2.2 [['a', ',', 'b']] ',' [['a'], ['b']]
      (by simp [read_csv_impl, stripCR, parse_csv_line, parseCsvAux])


/-!
## `validate_value` lemmas
-/

theorem validate_empty (v : List Char) (rule : ValidationRule) (i : Nat)
    (col : List Char) (E : List ValidationError) (h : cppTrim v = []) :
    validate_value v rule i col E = (.null, E) := by
  simp [validate_value, h]

theorem single_member (v : List Char) (rule : ValidationRule) (i : Nat)
    (col : List Char) (E : List ValidationError)
    (ht : rule.type = .SINGLE) (hne : cppTrim v ≠ [])
    (hmem : cppTrim v ∈ rule.valid_options) :
    validate_value v rule i col E = (.str (cppTrim v), E) := by
  simp [validate_value, hne, ht, hmem]

theorem single_not_member (v : List Char) (rule : ValidationRule) (i : Nat)
    (col : List Char) (E : List ValidationError)
    (ht : rule.type = .SINGLE) (hne : cppTrim v ≠ [])
    (hopts : rule.valid_options ≠ []) (hmem : cppTrim v ∉ rule.valid_options) :
    validate_value v rule i col E
      = (.null, E ++ [⟨i, col, v, .invalidOption⟩]) := by
  simp [validate_value, hne, ht, hopts, hmem]

theorem single_empty_opts (v : List Char) (rule : ValidationRule) (i : Nat)
    (col : List Char) (E : List ValidationError)
    (ht : rule.type = .SINGLE) (hne : cppTrim v ≠ [])
    (hopts : rule.valid_options = []) :
    validate_value v rule i col E = (.str (cppTrim v), E) := by
  simp [validate_value, hne, ht, hopts]

/-!
## Claim theorems: per-cell validation
-/

/-- Claim C7: under a SINGLE rule a non-empty-after-trim cell with a
non-empty option set is accepted exactly when the trimmed value is a
member of the set, yielding the trimmed string, and otherwise records
one "invalid option" error and becomes null; with an empty option set
any non-empty trimmed value is accepted; with options Yes/No, " Yes "
gives "Yes" with no error and "Maybe" gives null with one error. -/
theorem single_rule_spec :
    (∀ (v : List Char) (rule : ValidationRule) (i : Nat) (col : List Char)
        (E : List ValidationError),
      rule.type = .SINGLE → cppTrim v ≠ [] →
      cppTrim v ∈ rule.valid_options →
      validate_value v rule i col E = (.str (cppTrim v), E)) ∧
    (∀ (v : List Char) (rule : ValidationRule) (i : Nat) (col : List Char)
        (E : List ValidationError),
      rule.type = .SINGLE → cppTrim v ≠ [] →
      rule.valid_options ≠ [] → cppTrim v ∉ rule.valid_options →
      validate_value v rule i col E
        = (.null, E ++ [⟨i, col, v, .invalidOption⟩])) ∧
    (∀ (v : List Char) (rule : ValidationRule) (i : Nat) (col : List Char)
        (E : List ValidationError),
      rule.type = .SINGLE → cppTrim v ≠ [] →
      rule.valid_options = [] →
      validate_value v rule i col E = (.str (cppTrim v), E)) ∧
    (∀ (i : Nat) (col : List Char) (E : List ValidationError) (lo hi : ℚ),
      validate_value [' ', 'Y', 'e', 's', ' ']
        ⟨.SINGLE, lo, hi, [['Y', 'e', 's'], ['N', 'o']]⟩ i col E
        = (.str ['Y', 'e', 's'], E)) ∧
    (∀ (i : Nat) (col : List Char) (E : List ValidationError) (lo hi : ℚ),
      validate_value ['M', 'a', 'y', 'b', 'e']
        ⟨.SINGLE, lo, hi, [['Y', 'e', 's'], ['N', 'o']]⟩ i col E
        = (.null, E ++ [⟨i, col, ['M', 'a', 'y', 'b', 'e'], .invalidOption⟩])) := by
  refine ⟨single_member, single_not_member, single_empty_opts, ?_, ?_⟩
  · intro i col E lo hi
    have h1 : cppTrim [' ', 'Y', 'e', 's', ' '] = ['Y', 'e', 's'] := rfl
    exact single_member _ _ i col E rfl (by rw [h1]; simp) (by rw [h1]; simp)
  · intro i col E lo hi
    have h1 : cppTrim ['M', 'a', 'y', 'b', 'e'] = ['M', 'a', 'y', 'b', 'e'] := rfl
    exact single_not_member _ _ i col E rfl (by rw [h1]; simp) (by simp)
      (by rw [h1]; simp)

/-- Witness for `single_rule_spec` at concrete cells. -/
theorem single_rule_spec_witness :
    validate_value [' ', 'Y', 'e', 's', ' ']
      ⟨.SINGLE, 0, 10, [['Y', 'e', 's'], ['N', 'o']]⟩ 1 ['A'] []
      = (.str ['Y', 'e', 's'], []) ∧
    validate_value ['M', 'a', 'y', 'b', 'e']
      ⟨.SINGLE, 0, 10, [['Y', 'e', 's'], ['N', 'o']]⟩ 2 ['B'] []
      = (.null, [⟨2, ['B'], ['M', 'a', 'y', 'b', 'e'], .invalidOption⟩]) ∧
    validate_value ['o', 'k'] ⟨.SINGLE, 0, 10, []⟩ 3 ['C'] []
      = (.str ['o', 'k'], []) := by
  refine ⟨single_rule_spec.2.2.2.1 1 ['A'] [] 0 10,
    single_rule_spec.2.2.2.2 2 ['B'] [] 0 10,
    single_rule_spec.2.2.1 ['o', 'k'] ⟨.SINGLE, 0, 10, []⟩ 3 ['C'] [] rfl
      (by have h : cppTrim ['o', 'k'] = ['o', 'k'] := rfl; rw [h]; simp) rfl⟩

/-- Claim C5: for every rule kind an empty-after-trim cell becomes null
with no error recorded (the check precedes the kind branch); for a
column without a rule the cell passes through as a trimmed string,
which is never the null value even when the trimmed string is empty. -/
theorem empty_cell_untyped_spec :
    (∀ (v : List Char) (rule : ValidationRule) (i : Nat) (col : List Char)
        (E : List ValidationError),
      cppTrim v = [] → validate_value v rule i col E = (.null, E)) ∧
    (∀ (rules : List (List Char × ValidationRule)) (i : Nat)
        (name cell : List Char) (rest : List (List Char × List Char))
        (E : List ValidationError),
      lookupRule rules name = none →
      (validateCells rules i ((name, cell) :: rest) E).1.head?
        = some (name, .str (cppTrim cell))) ∧
    (∀ s : List Char, CellValue.str s ≠ CellValue.null) := by
  refine ⟨validate_empty, ?_, ?_⟩
  · intro rules i name cell rest E h
    simp [validateCells, h]
  · intro s h
    exact CellValue.noConfusion h

/-- Witness for `empty_cell_untyped_spec`: an all-whitespace NUMBER cell
nulls out silently, while an untyped empty cell stays the empty
string. -/
theorem empty_cell_untyped_spec_witness :
    validate_value [' ', ' '] ⟨.NUMBER, 0, 10, []⟩ 1 ['A'] [] = (.null, []) ∧
    (validateCells [] 1 ((['A'], []) :: []) []).1.head?
      = some (['A'], .str []) ∧
    CellValue.str [] ≠ CellValue.null := by
  refine ⟨empty_cell_untyped_spec.1 [' ', ' '] ⟨.NUMBER, 0, 10, []⟩ 1 ['A'] [] rfl,
    empty_cell_untyped_spec.2.1 [] 1 ['A'] [] [] [] rfl,
    empty_cell_untyped_spec.2.2 []⟩

/-!
## Claim theorem: short-row padding
-/

theorem validateCells_length (rules : List (List Char × ValidationRule))
    (i : Nat) : ∀ (pairs : List (List Char × List Char))
    (E : List ValidationError),
    (validateCells rules i pairs E).1.length = pairs.length
  | [], E => by simp [validateCells]
  | (name, cell) :: rest, E => by
    rw [validateCells]
    cases h : lookupRule rules name with
    | some rule =>
      simp only []
      simp [validateCells_length rules i rest]
    | none =>
      simp only []
      simp [validateCells_length rules i rest]

/-- Claim C6: for a data row shorter than the header, every column
position beyond the row's length is filled with null in the validated
output and with the empty string in the records output, regardless of
the column's rule, and the padding appends no validation error. -/
theorem short_row_padding_spec (rules : List (List Char × ValidationRule))
    (i : Nat) (header row : List (List Char)) (E : List ValidationError)
    (hlen : row.length ≤ header.length) :
    ((processRow rules i header row E).1.length = header.length) ∧
    (∀ (j : Nat) (hj : j < header.length), row.length ≤ j →
      (processRow rules i header row E).1[j]? = some (header[j], CellValue.null)) ∧
    ((processRow rules i header row E).2
      = (validateCells rules i (header.zip row) E).2) ∧
    (∀ (j : Nat) (hj : j < header.length), row.length ≤ j →
      (dictsRow header row)[j]? = some (header[j], ([] : List Char))) := by
  have hcl : (validateCells rules i (header.zip row) E).1.length = row.length := by
    rw [validateCells_length]
    simp [List.length_zip]
    omega
  refine ⟨?_, ?_, rfl, ?_⟩
  · simp [processRow, hcl]
    omega
  · intro j hj hle
    rw [processRow]
    simp only []
    rw [List.getElem?_append_right (by rw [hcl]; exact hle)]
    rw [hcl]
    rw [List.getElem?_map, List.getElem?_drop]
    have : row.length + (j - row.length) = j := by omega
    rw [this, List.getElem?_eq_getElem hj]
    rfl
  · intro j hj hle
    rw [dictsRow]
    have hzl : (header.zip row).length = row.length := by
      simp [List.length_zip]
      omega
    rw [List.getElem?_append_right (by rw [hzl]; exact hle)]
    rw [hzl]
    rw [List.getElem?_map, List.getElem?_drop]
    have : row.length + (j - row.length) = j := by omega
    rw [this, List.getElem?_eq_getElem hj]
    rfl

/-- Witness for `short_row_padding_spec`: header A,B,C with row ["1"]. -/
theorem short_row_padding_spec_witness :
    (processRow [(['A'], ⟨.NUMBER, 0, 10, []⟩)] 1 [['A'], ['B'], ['C']]
      [['1']] []).1.length = 3 ∧
    (processRow [(['A'], ⟨.NUMBER, 0, 10, []⟩)] 1 [['A'], ['B'], ['C']]
      [['1']] []).1[1]? = some (['B'], CellValue.null) ∧
    (processRow [(['A'], ⟨.NUMBER, 0, 10, []⟩)] 1 [['A'], ['B'], ['C']]
      [['1']] []).1[2]? = some (['C'], CellValue.null) ∧
    (processRow [(['A'], ⟨.NUMBER, 0, 10, []⟩)] 1 [['A'], ['B'], ['C']]
      [['1']] []).2
      = (validateCells [(['A'], ⟨.NUMBER, 0, 10, []⟩)] 1
          ([['A'], ['B'], ['C']].zip [['1']]) []).2 ∧
    (dictsRow [['A'], ['B'], ['C']] [['1']])[1]? = some (['B'], ([] : List Char)) := by
  have h := short_row_padding_spec [(['A'], ⟨.NUMBER, 0, 10, []⟩)] 1
    [['A'], ['B'], ['C']] [['1']] [] (by simp)
  refine ⟨h.1, h.2.1 1 (by simp) (by simp), h.2.1 2 (by simp) (by simp),
    h.2.2.1, h.2.2.2 1 (by simp) (by simp)⟩

/-!
## Claim theorem: error ordering
-/

theorem validate_value_err_shape (v : List Char) (rule : ValidationRule)
    (i : Nat) (col : List Char) (E : List ValidationError) :
    ((validate_value v rule i col E).2 = E ++ (validate_value v rule i col []).2)
      ∧ ((validate_value v rule i col []).2 = []
          ∨ ∃ m, (validate_value v rule i col []).2 = [⟨i, col, v, m⟩]) := by
  by_cases h0 : cppTrim v = []
  · constructor
    · simp [validate_value, h0]
    · left; simp [validate_value, h0]
  · cases hr : rule.type with
    | TEXT =>
      constructor
      · simp [validate_value, h0, hr]
      · left; simp [validate_value, h0, hr]
    | NUMBER =>
      cases hs : stodModel (cppTrim v) with
      | none =>
        constructor
        · simp [validate_value, h0, hr, hs]
        · right; exact ⟨.notValidNumber, by simp [validate_value, h0, hr, hs]⟩
      | some np =>
        obtain ⟨n, p⟩ := np
        by_cases hp : p = (cppTrim v).length
        · constructor
          · simp [validate_value, h0, hr, hs, hp]
          · left; simp [validate_value, h0, hr, hs, hp]
        · constructor
          · simp [validate_value, h0, hr, hs, hp]
          · right; exact ⟨.notValidNumber, by simp [validate_value, h0, hr, hs, hp]⟩
    | SCALE =>
      cases hs : stodModel (cppTrim v) with
      | none =>
        constructor
        · simp [validate_value, h0, hr, hs]
        · right; exact ⟨.notValidNumberScale, by simp [validate_value, h0, hr, hs]⟩
      | some np =>
        obtain ⟨n, p⟩ := np
        by_cases hp : p = (cppTrim v).length
        · by_cases hout : n < rule.min_value ∨ rule.max_value < n
          · constructor
            · simp [validate_value, h0, hr, hs, hp, hout]
            · right
              exact ⟨.outOfRange rule.min_value rule.max_value,
                by simp [validate_value, h0, hr, hs, hp, hout]⟩
          · constructor
            · simp [validate_value, h0, hr, hs, hp, hout]
            · left; simp [validate_value, h0, hr, hs, hp, hout]
        · constructor
          · simp [validate_value, h0, hr, hs, hp]
          · right
            exact ⟨.notValidNumberScale, by simp [validate_value, h0, hr, hs, hp]⟩
    | SINGLE =>
      by_cases ho : rule.valid_options ≠ [] ∧ cppTrim v ∉ rule.valid_options
      · constructor
        · simp [validate_value, h0, hr, ho]
        · right; exact ⟨.invalidOption, by simp [validate_value, h0, hr, ho]⟩
      · constructor
        · simp [validate_value, h0, hr, ho]
        · left; simp [validate_value, h0, hr, ho]

theorem mem_cellErrs (rules : List (List Char × ValidationRule)) (i : Nat)
    (p : List Char × List Char) (e : ValidationError)
    (h : e ∈ cellErrs rules i p) :
    e.row_index = i ∧ e.column = p.1 ∧ e.value = p.2 := by
  rw [cellErrs] at h
  cases hl : lookupRule rules p.1 with
  | none => rw [hl] at h; simp at h
  | some rule =>
    rw [hl] at h
    simp only [] at h
    rcases (validate_value_err_shape p.2 rule i p.1 []).2 with h2 | ⟨m, h2⟩
    · rw [h2] at h; simp at h
    · rw [h2] at h
      simp at h
      rw [h]
      exact ⟨rfl, rfl, rfl⟩
theorem validateCells_err_split (rules : List (List Char × ValidationRule))
    (i : Nat) : ∀ (pairs : List (List Char × List Char))
    (E : List ValidationError),
    (validateCells rules i pairs E).2
      = E ++ (pairs.map (cellErrs rules i)).flatten
  | [], E => by simp [validateCells]
  | (name, cell) :: rest, E => by
    rw [validateCells]
    cases h : lookupRule rules name with
    | some rule =>
      simp only []
      rw [validateCells_err_split rules i rest]
      rw [(validate_value_err_shape cell rule i name E).1]
      simp [cellErrs, h]
    | none =>
      simp only []
      rw [validateCells_err_split rules i rest]
      simp [cellErrs, h]

theorem validateRows_err_split (rules : List (List Char × ValidationRule))
    (header : List (List Char)) : ∀ (rows : List (List (List Char)))
    (i : Nat) (E : List ValidationError),
    (validateRows rules header i rows E).2 = E ++ rowsErrs rules header i rows
  | [], i, E => by simp [validateRows, rowsErrs]
  | row :: rest, i, E => by
    rw [validateRows, rowsErrs]
    simp only [processRow]
    rw [validateRows_err_split rules header rest (i + 1)]
    rw [validateCells_err_split rules i (header.zip row)]
    simp [rowErrs]

theorem mem_rowErrs (rules : List (List Char × ValidationRule)) (i : Nat)
    (header row : List (List Char)) (e : ValidationError)
    (h : e ∈ rowErrs rules i header row) : e.row_index = i := by
  rw [rowErrs] at h
  rw [List.mem_flatten] at h
  obtain ⟨l, hl, hel⟩ := h
  rw [List.mem_map] at hl
  obtain ⟨p, _, hp⟩ := hl
  rw [← hp] at hel
  exact (mem_cellErrs rules i p e hel).1

/-- Claim C10: the error list of the validated output is ordered by
traversal: each cell appends at most one error carrying its row index,
column name and raw value; each row contributes the concatenation of
its cells' errors in ascending column-position order over the zipped
prefix; the full list is the concatenation of the rows' errors in
ascending row order; and every error of the row at 1-based data-row
index i has row_index i. -/
theorem error_order_spec :
    (∀ (v : List Char) (rule : ValidationRule) (i : Nat) (col : List Char)
        (E : List ValidationError),
      (validate_value v rule i col E).2
        = E ++ (validate_value v rule i col []).2) ∧
    (∀ (v : List Char) (rule : ValidationRule) (i : Nat) (col : List Char),
      (validate_value v rule i col []).2.length ≤ 1) ∧
    (∀ (rules : List (List Char × ValidationRule)) (i : Nat)
        (p : List Char × List Char) (e : ValidationError),
      e ∈ cellErrs rules i p →
      e.row_index = i ∧ e.column = p.1 ∧ e.value = p.2) ∧
    (∀ (rules : List (List Char × ValidationRule)) (i : Nat)
        (pairs : List (List Char × List Char)) (E : List ValidationError),
      (validateCells rules i pairs E).2
        = E ++ (pairs.map (cellErrs rules i)).flatten) ∧
    (∀ (rules : List (List Char × ValidationRule))
        (header : List (List Char)) (rows : List (List (List Char)))
        (i : Nat) (E : List ValidationError),
      (validateRows rules header i rows E).2
        = E ++ rowsErrs rules header i rows) ∧
    (∀ (rules : List (List Char × ValidationRule))
        (header row : List (List Char)) (i : Nat)
        (rest : List (List (List Char))),
      rowsErrs rules header i (row :: rest)
        = rowErrs rules i header row ++ rowsErrs rules header (i + 1) rest) ∧
    (∀ (rules : List (List Char × ValidationRule)) (i : Nat)
        (header row : List (List Char)) (e : ValidationError),
      e ∈ rowErrs rules i header row → e.row_index = i) ∧
    (∀ (rules : List (List Char × ValidationRule))
        (header : List (List Char)) (dataRows : List (List (List Char))),
      (read_and_validate rules (header :: dataRows)).2
        = rowsErrs rules header 1 dataRows) := by
  refine ⟨fun v rule i col E => (validate_value_err_shape v rule i col E).1,
    ?_, mem_cellErrs, validateCells_err_split, validateRows_err_split,
    fun rules header row i rest => rfl, mem_rowErrs, ?_⟩
  · intro v rule i col
    rcases (validate_value_err_shape v rule i col []).2 with h | ⟨m, h⟩ <;>
      simp [h]
  · intro rules header dataRows
    rw [read_and_validate]
    rw [validateRows_err_split rules header dataRows 1 []]
    simp

/-- Witness for `error_order_spec`: the append law and the row-index
law at a concrete failing cell. -/
theorem error_order_spec_witness :
    (validate_value ['x'] ⟨.NUMBER, 0, 10, []⟩ 5 ['A']
        [⟨1, ['B'], ['y'], .invalidOption⟩]).2
      = [⟨1, ['B'], ['y'], .invalidOption⟩]
        ++ (validate_value ['x'] ⟨.NUMBER, 0, 10, []⟩ 5 ['A'] []).2 ∧
    (⟨5, ['A'], ['x'], ErrMsg.notValidNumber⟩ : ValidationError).row_index = 5 := by
  constructor
  · exact error_order_spec.1 ['x'] ⟨.NUMBER, 0, 10, []⟩ 5 ['A']
      [⟨1, ['B'], ['y'], .invalidOption⟩]
  · apply error_order_spec.2.2.2.2.2.2.1 [(['A'], ⟨.NUMBER, 0, 10, []⟩)] 5
      [['A']] [['x']]
    have h1 : cppTrim ['x'] = ['x'] := rfl
    have h2 : stodModel ['x'] = none := by simp [stodModel, isDig, List.takeWhile]
    simp [rowErrs, cellErrs, lookupRule, validate_value, h1, h2]

/-!
## Claim theorems: `trim`

The do-while backward scan decrements the `end` iterator once before
testing `distance(start, end) > 0`, so on the empty string the iterator
ends one position before the start of the string (offset -1).  The scan
never dereferences there (the `isspace(*end)` read is short-circuited),
and the returned range `[start, end + 1)` is still the correct empty
result.
-/

theorem findStart_eq (s : List Char) :
    findStart s = (s.takeWhile cppIsSpace).length := by
  induction s with
  | nil => simp [findStart]
  | cons c rest ih =>
    by_cases h : cppIsSpace c
    · simp [findStart, List.takeWhile_cons, h, ih]
    · simp [findStart, List.takeWhile_cons, h]

theorem backScanE_skip (s : List Char) (st t : Nat)
    (hsp : ∀ j, t ≤ j → j < s.length →
      (st < j ∧ cppIsSpace (s.getD j 'a') = true)) :
    ∀ e, t ≤ e → e ≤ s.length → backScanE s st e = backScanE s st t := by
  intro e
  induction e with
  | zero =>
    intro h1 _
    have : t = 0 := by omega
    rw [this]
  | succ e ih =>
    intro h1 h2
    by_cases he : t = e + 1
    · rw [he]
    · have ht : t ≤ e := by omega
      rw [backScanE]
      have hcond := hsp e (by omega) (by omega)
      rw [if_pos hcond]
      exact ih ht (by omega)

theorem backScanE_stop (s : List Char) (st k : Nat)
    (hk : ¬ (st < st + k ∧ cppIsSpace (s.getD (st + k) 'a') = true)) :
    backScanE s st (st + k + 1) = ((st + k : Nat) : Int) := by
  rw [backScanE]
  rw [if_neg hk]

/-- Claim C9 (amended): the trim helper is total and returns its input
with all leading and trailing whitespace removed (in particular trim of
the empty string is the empty string); the final position of its
backward scan is never below -1, and it moves before the start of the
string only on the empty input. -/
theorem trim_correct (s : List Char) :
    cppTrim s = trimSpec s ∧ -1 ≤ trimScanEnd s ∧
    (s ≠ [] → 0 ≤ trimScanEnd s) := by
  by_cases hs0 : s = []
  · subst hs0
    exact ⟨rfl, by decide, fun h => absurd rfl h⟩
  · by_cases hL0 : s.dropWhile cppIsSpace = []
    · -- all-whitespace non-empty string
      have ha : s.takeWhile cppIsSpace = s := by
        have h := List.takeWhile_append_dropWhile cppIsSpace s
        rw [hL0] at h
        simpa using h
      have hst : findStart s = s.length := by rw [findStart_eq, ha]
      obtain ⟨k, hk⟩ : ∃ k, s.length = k + 1 := by
        cases s with
        | nil => exact absurd rfl hs0
        | cons c r => exact ⟨r.length, rfl⟩
      have hscan : trimScanEnd s = (k : Int) := by
        rw [trimScanEnd, hst, hk]
        rw [backScanE]
        rw [if_neg (by omega)]
      have hspec : trimSpec s = [] := by
        rw [trimSpec, hL0]
        simp
      refine ⟨?_, by rw [hscan]; omega, fun _ => by rw [hscan]; omega⟩
      rw [cppTrim, hscan, hspec, hst]
      have h1 : ((k : Int) + 1).toNat = k + 1 := by omega
      rw [h1]
      apply List.drop_eq_nil_of_le
      calc (s.take (k + 1)).length ≤ s.length := by
            simp [List.length_take]
        _ = k + 1 := hk
        _ ≤ s.length := by omega
    · -- there is a non-whitespace character
      set a := s.takeWhile cppIsSpace with hadef
      set L := s.dropWhile cppIsSpace with hLdef
      set R := L.reverse.dropWhile cppIsSpace with hRdef
      set m := R.reverse with hmdef
      set b := (L.reverse.takeWhile cppIsSpace).reverse with hbdef
      have hsplit : a ++ L = s := List.takeWhile_append_dropWhile cppIsSpace s
      have hLrev : b.reverse ++ R = L.reverse := by
        rw [hbdef, List.reverse_reverse]
        exact List.takeWhile_append_dropWhile cppIsSpace L.reverse
      have hLmb : L = m ++ b := by
        have h := congrArg List.reverse hLrev
        simp only [List.reverse_append, List.reverse_reverse] at h
        rw [← h, hmdef]
      have hRne : R ≠ [] := by
        intro h
        rw [hRdef, List.dropWhile_eq_nil_iff] at h
        have h0 : 0 < L.length := List.length_pos.mpr hL0
        have hh := List.dropWhile_get_zero_not cppIsSpace s
          (by rw [← hLdef]; exact h0)
        apply hh
        apply h
        rw [List.mem_reverse]
        exact List.get_mem _ _ _
      obtain ⟨r0, rt, hR⟩ : ∃ r0 rt, R = r0 :: rt := by
        cases hRe : R with
        | nil => exact absurd hRe hRne
        | cons x xs => exact ⟨x, xs, rfl⟩
      have hr0 : ¬ cppIsSpace r0 = true := by
        have hh := List.dropWhile_get_zero_not cppIsSpace L.reverse
          (by rw [← hRdef, hR]; simp)
        have he : (L.reverse.dropWhile cppIsSpace).get
            ⟨0, by rw [← hRdef, hR]; simp⟩ = r0 := by
          simp [← hRdef, hR]
        rw [he] at hh
        exact hh
      have hm_ne : m ≠ [] := by rw [hmdef, hR]; simp
      have hm_pos : 0 < m.length := List.length_pos.mpr hm_ne
      have hs2 : s = (a ++ m) ++ b := by
        rw [← hsplit, hLmb, List.append_assoc]
      have hstA : findStart s = a.length := by rw [findStart_eq, ← hadef]
      have hb : ∀ x ∈ b, cppIsSpace x = true := by
        intro x hx
        rw [hbdef, List.mem_reverse] at hx
        exact List.mem_takeWhile_imp hx
      have hslen : s.length = a.length + m.length + b.length := by
        rw [hs2]
        simp only [List.length_append]
      have hsp : ∀ j, (a.length + m.length) ≤ j → j < s.length →
          (a.length < j ∧ cppIsSpace (s.getD j 'a') = true) := by
        intro j hj1 hj2
        refine ⟨by omega, ?_⟩
        rw [List.getD_eq_getElem?_getD]
        rw [hs2, List.getElem?_append_right (by simp only [List.length_append]; omega)]
        have hlt : j - (a ++ m).length < b.length := by
          simp only [List.length_append]
          omega
        rw [List.getElem?_eq_getElem hlt]
        simp only [Option.getD_some]
        exact hb _ (List.getElem_mem hlt)
      have hmr : m = rt.reverse ++ [r0] := by rw [hmdef, hR]; simp
      have he2 : m.length - 1 = rt.length := by rw [hmr]; simp
      have hgd : s.getD (a.length + (m.length - 1)) 'a' = r0 := by
        rw [List.getD_eq_getElem?_getD]
        rw [hs2, List.getElem?_append_left (by simp only [List.length_append]; omega)]
        rw [List.getElem?_append_right (by omega)]
        have he1 : a.length + (m.length - 1) - a.length = m.length - 1 := by omega
        rw [he1, he2, hmr]
        rw [List.getElem?_append_right (by simp)]
        simp
      have hstop : ¬ (a.length < a.length + (m.length - 1) ∧
          cppIsSpace (s.getD (a.length + (m.length - 1)) 'a') = true) := by
        intro hcon
        rw [hgd] at hcon
        exact hr0 hcon.2
      have hscan : trimScanEnd s
          = ((a.length + (m.length - 1) : Nat) : Int) := by
        rw [trimScanEnd, hstA]
        rw [hslen]
        rw [backScanE_skip s a.length (a.length + m.length) hsp
          (a.length + m.length + b.length) (by omega) (by omega)]
        have hm1 : a.length + m.length = a.length + (m.length - 1) + 1 := by omega
        rw [hm1]
        exact backScanE_stop s a.length (m.length - 1) hstop
      have hspec : trimSpec s = m := by
        rw [trimSpec, ← hLdef, ← hRdef, ← hmdef]
      refine ⟨?_, by rw [hscan]; omega, fun _ => by rw [hscan]; omega⟩
      rw [cppTrim, hscan, hspec, hstA]
      have h1 : (((a.length + (m.length - 1) : Nat) : Int) + 1).toNat
          = a.length + m.length := by omega
      rw [h1]
      rw [hs2]
      have h2 : a.length + m.length = (a ++ m).length := by
        simp only [List.length_append]
      rw [h2, List.take_left, List.drop_left]

/-- Counterexample to claim C9 as stated: on the empty string the
backward scan of trim does move before the start of the string - its
final offset is -1. -/
theorem trim_scan_before_start_cex :
    trimScanEnd ([] : List Char) = -1 ∧ trimScanEnd ([] : List Char) < 0 := by
  constructor
  · rfl
  · decide

/-- Witness for `trim_correct` at concrete strings. -/
theorem trim_correct_witness :
    cppTrim [' ', 'a', ' '] = trimSpec [' ', 'a', ' '] ∧
    ([' ', 'a', ' '] : List Char) ≠ [] ∧
    0 ≤ trimScanEnd [' ', 'a', ' '] ∧
    cppTrim [] = trimSpec [] :=
  ⟨(trim_correct [' ', 'a', ' ']).1, by simp,
   (trim_correct [' ', 'a', ' ']).2.2 (by simp),
   (trim_correct []).1⟩

end CppCsv
